import Mathlib

/-!
Shallow embedding of the threadkeeper identity-and-attachment core (the Go
sources under `internal/task`, `internal/store` and the attach/show command
files), together with theorems settling the specification claims.

Modelling conventions, used throughout:
* Go `map[string]V` values are modelled as association lists with unique keys
  (`assocGet`/`assocSet`/`assocErase` mirror indexing, assignment and
  `delete`).  Go iterates maps in unspecified order; wherever the source
  iterates a map and then sorts, the model extracts entries in association
  order and sorts with the same comparator, which is one admissible
  resolution of that nondeterminism.
* Go strings are modelled as `String` / `List Char`; the data relevant to the
  claims is ASCII, where Go's byte-wise operations agree with the
  character-wise model.
* Go `int` / `int64` are modelled as `Int`, or as `Nat` where the source
  value is a length or timestamp and hence non-negative.
* Filesystems are association lists from path to file content; `sort.Slice`
  is modelled by `List.insertionSort` with the same comparator (Go's sort is
  unstable, so on tied keys the source's order is unspecified; the model
  fixes one admissible order).
-/

namespace Threadkeeper

/-- Lookup in an association list, modelling Go map indexing `m[k]`. -/
def assocGet {β : Type} : List (String × β) → String → Option β
  | [], _ => none
  | (k, v) :: m, q => if k = q then some v else assocGet m q

/-- Insert-or-replace, modelling Go map assignment `m[k] = v`. -/
def assocSet {β : Type} : List (String × β) → String → β → List (String × β)
  | [], k, v => [(k, v)]
  | (k0, v0) :: m, k, v => if k0 = k then (k, v) :: m else (k0, v0) :: assocSet m k v

/-- Key removal, modelling Go `delete(m, k)`. -/
def assocErase {β : Type} : List (String × β) → String → List (String × β)
  | [], _ => []
  | (k0, v0) :: m, k => if k0 = k then assocErase m k else (k0, v0) :: assocErase m k

/-- The keys of an association list. -/
def assocKeys {β : Type} (m : List (String × β)) : List String :=
  m.map Prod.fst

/-- `BlobRef` from `internal/commands/open.go`: a content-addressed blob
reference (`algo`, `hash`). -/
structure BlobRef where
  algo : String
  hash : String
deriving DecidableEq, Repr

/-- `Attachment` from `internal/commands/open.go`: full attachment metadata
as recorded in each ledger event. -/
structure Attachment where
  attID : String
  kind : String
  name : String
  mediaType : String
  blob : Option BlobRef
  size : Int
  url : String
  label : String
deriving DecidableEq, Repr

/-- `AttachmentEvent` from `internal/commands/open.go`: one line of
`attachments.jsonl` (`op` is `"add"` or `"remove"`, `ts` an RFC3339 string,
`att` a full metadata snapshot). -/
structure AttachmentEvent where
  op : String
  ts : String
  att : Attachment
deriving DecidableEq, Repr

/-- One step of the reducer loop body in `computeCurrentAttachments`
(open.go): `add` sets/replaces the map entry for the event's attachment id,
`remove` deletes it, any other op tag falls through the `switch`. -/
def applyEvent (active : List (String × AttachmentEvent)) (event : AttachmentEvent) :
    List (String × AttachmentEvent) :=
  if event.op = "add" then assocSet active event.att.attID event
  else if event.op = "remove" then assocErase active event.att.attID
  else active

/-- The `active` map built by the event loop of `computeCurrentAttachments`. -/
def buildActive (events : List AttachmentEvent) : List (String × AttachmentEvent) :=
  events.foldl applyEvent []

/-- The comparator of the `sort.Slice` call in `computeCurrentAttachments`:
ascending by the `TS` string (Go compares strings byte-wise). -/
def tsLE (a b : AttachmentEvent) : Prop :=
  a.ts ≤ b.ts

instance : DecidableRel tsLE := fun a b => inferInstanceAs (Decidable (a.ts ≤ b.ts))

instance : IsTotal AttachmentEvent tsLE := ⟨fun a b => le_total a.ts b.ts⟩

instance : IsTrans AttachmentEvent tsLE := ⟨fun _ _ _ h1 h2 => le_trans h1 h2⟩

/-- `computeCurrentAttachments` from `internal/commands/open.go` (shared with
show.go): replay the events through the `active` map, collect the surviving
events, and sort them ascending by timestamp. -/
def computeCurrentAttachments (events : List AttachmentEvent) : List AttachmentEvent :=
  List.insertionSort tsLE ((buildActive events).map Prod.snd)

/-- Keys of an association list have no duplicates (Go maps always do). -/
def nodupKeys {β : Type} (m : List (String × β)) : Prop :=
  (assocKeys m).Nodup

theorem assocGet_set_self {β : Type} (m : List (String × β)) (k : String) (v : β) :
    assocGet (assocSet m k v) k = some v := by
  induction m with
  | nil => simp [assocSet, assocGet]
  | cons p m ih =>
    by_cases h : p.1 = k
    · simp [assocSet, h, assocGet]
    · simp [assocSet, h, assocGet, ih]

theorem assocGet_set_ne {β : Type} (m : List (String × β)) (k q : String) (v : β)
    (h : q ≠ k) : assocGet (assocSet m k v) q = assocGet m q := by
  induction m with
  | nil => simp [assocSet, assocGet, Ne.symm h]
  | cons p m ih =>
    by_cases hk : p.1 = k
    · subst hk
      simp [assocSet, assocGet, Ne.symm h]
    · by_cases hq : p.1 = q
      · simp [assocSet, hk, assocGet, hq, h]
      · simp [assocSet, hk, assocGet, hq, ih]

theorem assocGet_erase_self {β : Type} (m : List (String × β)) (k : String) :
    assocGet (assocErase m k) k = none := by
  induction m with
  | nil => simp [assocErase, assocGet]
  | cons p m ih =>
    by_cases h : p.1 = k
    · simp [assocErase, h, ih]
    · simp [assocErase, h, assocGet, ih]

theorem assocGet_erase_ne {β : Type} (m : List (String × β)) (k q : String)
    (h : q ≠ k) : assocGet (assocErase m k) q = assocGet m q := by
  induction m with
  | nil => simp [assocErase]
  | cons p m ih =>
    by_cases hk : p.1 = k
    · subst hk
      simp [assocErase, assocGet, Ne.symm h, ih]
    · by_cases hq : p.1 = q
      · simp [assocErase, hk, assocGet, hq, h]
      · simp [assocErase, hk, assocGet, hq, ih]

theorem assocGet_mem_keys {β : Type} (m : List (String × β)) (k : String) (v : β)
    (h : assocGet m k = some v) : k ∈ assocKeys m := by
  induction m with
  | nil => simp [assocGet] at h
  | cons p m ih =>
    by_cases hk : p.1 = k
    · simp [assocKeys, hk]
    · simp [assocGet, hk] at h
      simp [assocKeys]
      right
      have := ih h
      simpa [assocKeys] using this

theorem mem_keys_set {β : Type} (m : List (String × β)) (k q : String) (v : β) :
    q ∈ assocKeys (assocSet m k v) ↔ q = k ∨ q ∈ assocKeys m := by
  induction m with
  | nil => simp [assocSet, assocKeys]
  | cons p m ih =>
    by_cases hk : p.1 = k
    · subst hk
      simp [assocSet, assocKeys]
    · simp only [assocSet, if_neg hk, assocKeys, List.map_cons, List.mem_cons]
      rw [show (List.map Prod.fst (assocSet m k v)) = assocKeys (assocSet m k v) from rfl]
      rw [ih]
      tauto

theorem mem_keys_erase {β : Type} (m : List (String × β)) (k q : String)
    (h : q ∈ assocKeys (assocErase m k)) : q ∈ assocKeys m := by
  induction m with
  | nil => simpa [assocErase] using h
  | cons p m ih =>
    by_cases hk : p.1 = k
    · simp only [assocErase, if_pos hk] at h
      simp [assocKeys, List.mem_cons]
      right
      simpa [assocKeys] using ih h
    · simp only [assocErase, if_neg hk, assocKeys, List.map_cons, List.mem_cons] at h
      rcases h with h | h

      · simp [assocKeys, h]
      · simp [assocKeys, List.mem_cons]
        right
        simpa [assocKeys] using ih (by simpa [assocKeys] using h)

theorem nodupKeys_set {β : Type} (m : List (String × β)) (k : String) (v : β)
    (h : nodupKeys m) : nodupKeys (assocSet m k v) := by
  induction m with
  | nil => simp [assocSet, nodupKeys, assocKeys]
  | cons p m ih =>
    simp only [nodupKeys, assocKeys, List.map_cons, List.nodup_cons] at h
    by_cases hk : p.1 = k
    · subst hk
      rw [show assocSet (p :: m) p.1 v = (p.1, v) :: m from by simp [assocSet]]
      simp only [nodupKeys, assocKeys, List.map_cons, List.nodup_cons]
      exact ⟨by simpa [assocKeys] using h.1, h.2⟩
    · simp only [assocSet, if_neg hk, nodupKeys, assocKeys, List.map_cons,
        List.nodup_cons]
      refine ⟨?_, ih h.2⟩
      intro hmem
      rcases (mem_keys_set m k p.1 v).1 (by simpa [assocKeys] using hmem) with h1 | h1
      · exact hk h1
      · exact h.1 (by simpa [assocKeys] using h1)

theorem nodupKeys_erase {β : Type} (m : List (String × β)) (k : String)
    (h : nodupKeys m) : nodupKeys (assocErase m k) := by
  induction m with
  | nil => simpa [assocErase] using h
  | cons p m ih =>
    simp only [nodupKeys, assocKeys, List.map_cons, List.nodup_cons] at h
    by_cases hk : p.1 = k
    · simp only [assocErase, if_pos hk]
      exact ih h.2
    · simp only [assocErase, if_neg hk, nodupKeys, assocKeys, List.map_cons,
        List.nodup_cons]
      refine ⟨?_, ih h.2⟩
      intro hmem
      exact h.1 (by
        simpa [assocKeys] using mem_keys_erase m k p.1 (by simpa [assocKeys] using hmem))

/-- Last-applicable-event-wins for a single attachment id: the state after
replaying the events that carry that id (`add` sets, `remove` clears, any
other op tag leaves the state alone). -/
def lastWins (acc : Option AttachmentEvent) : List AttachmentEvent → Option AttachmentEvent
  | [] => acc
  | e :: es => lastWins (if e.op = "add" then some e else if e.op = "remove" then none else acc) es

theorem foldl_applyEvent_get (l : List AttachmentEvent) :
    ∀ (m : List (String × AttachmentEvent)) (k : String),
      assocGet (l.foldl applyEvent m) k =
        lastWins (assocGet m k) (l.filter (fun ev => ev.att.attID = k)) := by
  induction l with
  | nil => intro m k; rfl
  | cons e l ih =>
    intro m k
    simp only [List.foldl_cons, List.filter_cons]
    by_cases hkey : e.att.attID = k
    · rw [if_pos (by simpa using hkey)]
      rw [ih]
      have hstep : assocGet (applyEvent m e) k =
          (if e.op = "add" then some e else if e.op = "remove" then none
            else assocGet m k) := by
        by_cases hadd : e.op = "add"
        · subst hkey
          simp [applyEvent, hadd, assocGet_set_self]
        · by_cases hrem : e.op = "remove"
          · subst hkey
            simp [applyEvent, hadd, hrem, assocGet_erase_self]
          · simp [applyEvent, hadd, hrem]
      rw [hstep]
      rfl
    · rw [if_neg (by simpa using hkey)]
      rw [ih]
      have hstep : assocGet (applyEvent m e) k = assocGet m k := by
        by_cases hadd : e.op = "add"
        · simp [applyEvent, hadd, assocGet_set_ne _ _ _ _ (Ne.symm hkey)]
        · by_cases hrem : e.op = "remove"
          · simp [applyEvent, hadd, hrem, assocGet_erase_ne _ _ _ (Ne.symm hkey)]
          · simp [applyEvent, hadd, hrem]
      rw [hstep]

theorem nodupKeys_foldl_applyEvent (l : List AttachmentEvent) :
    ∀ m, nodupKeys m → nodupKeys (l.foldl applyEvent m) := by
  induction l with
  | nil => intro m hm; exact hm
  | cons e l ih =>
    intro m hm
    simp only [List.foldl_cons]
    refine ih _ ?_
    by_cases hadd : e.op = "add"
    · simpa [applyEvent, hadd] using nodupKeys_set m e.att.attID e hm
    · by_cases hrem : e.op = "remove"
      · simpa [applyEvent, hadd, hrem] using nodupKeys_erase m e.att.attID hm
      · simpa [applyEvent, hadd, hrem] using hm

theorem nodupKeys_buildActive (l : List AttachmentEvent) : nodupKeys (buildActive l) :=
  nodupKeys_foldl_applyEvent l [] (by simp [nodupKeys, assocKeys])

theorem mem_values_iff {β : Type} (m : List (String × β)) (hm : nodupKeys m) (v : β) :
    v ∈ m.map Prod.snd ↔ ∃ k, assocGet m k = some v := by
  induction m with
  | nil => simp [assocGet]
  | cons p m ih =>
    simp only [nodupKeys, assocKeys, List.map_cons, List.nodup_cons] at hm
    simp only [List.map_cons, List.mem_cons]
    constructor
    · rintro (hv | hv)
      · exact ⟨p.1, by simp [assocGet, hv]⟩
      · rcases (ih hm.2).1 hv with ⟨k, hk⟩
        have hne : p.1 ≠ k := by
          intro hc
          exact hm.1 (by
            subst hc
            simpa [assocKeys] using assocGet_mem_keys m p.1 v hk)
        exact ⟨k, by simp [assocGet, hne, hk]⟩
    · rintro ⟨k, hk⟩
      by_cases hp : p.1 = k
      · simp only [assocGet, if_pos hp] at hk
        left
        exact (Option.some.inj hk).symm
      · simp only [assocGet, if_neg hp] at hk
        right
        exact (ih hm.2).2 ⟨k, hk⟩

/-- Concrete attachments and events used by the reducer claims. -/
def attA : Attachment := ⟨"a", "note", "n", "", none, 0, "", ""⟩

def evAdd : AttachmentEvent := ⟨"add", "2024-01-01T00:00:00Z", attA⟩

def evRem : AttachmentEvent := ⟨"remove", "2024-01-02T00:00:00Z", attA⟩

/-- C1 counterexample: `computeCurrentAttachments` is NOT invariant under
arbitrary permutation of its input.  Swapping an `add` and the `remove` of
the same attachment id (last-applicable-event-wins is sequence-order
dependent) changes the surviving set: one order yields no attachments, the
other yields the `add` event, so the two outputs are not even permutations
of each other. -/
theorem C1_perm_counterexample :
    List.Perm [evAdd, evRem] [evRem, evAdd] ∧
      computeCurrentAttachments [evAdd, evRem] = [] ∧
      computeCurrentAttachments [evRem, evAdd] = [evAdd] ∧
      ¬ List.Perm (computeCurrentAttachments [evAdd, evRem])
          (computeCurrentAttachments [evRem, evAdd]) := by
  decide

/-- C1 (amended): the output of `computeCurrentAttachments` is always sorted
ascending by the surviving event's timestamp, and the resulting attachment
*set* depends only on the per-attachment-id subsequences of the input: two
event sequences that agree, for every attachment id, on the subsequence of
events carrying that id (in particular, permutations that preserve each id's
relative event order) produce the same set of surviving events.  Invariance
under arbitrary permutation fails (see the counterexample). -/
theorem C1_computeCurrent_sorted_and_per_id (l1 l2 : List AttachmentEvent)
    (e : AttachmentEvent)
    (hf : ∀ k ∈ l1.map (fun ev => ev.att.attID) ++ l2.map (fun ev => ev.att.attID),
      l1.filter (fun ev => ev.att.attID = k) = l2.filter (fun ev => ev.att.attID = k)) :
    List.Sorted tsLE (computeCurrentAttachments l1) ∧
      (e ∈ computeCurrentAttachments l1 ↔ e ∈ computeCurrentAttachments l2) := by
  refine ⟨List.sorted_insertionSort tsLE _, ?_⟩
  have hget : ∀ k, assocGet (buildActive l1) k = assocGet (buildActive l2) k := by
    intro k
    by_cases hk : k ∈ l1.map (fun ev => ev.att.attID) ++ l2.map (fun ev => ev.att.attID)
    · rw [buildActive, buildActive, foldl_applyEvent_get, foldl_applyEvent_get, hf k hk]
    · have h1 : l1.filter (fun ev => ev.att.attID = k) = [] := by
        rw [List.filter_eq_nil_iff]
        intro a ha
        simp only [decide_eq_true_eq]
        intro hc
        exact hk (by
          rw [List.mem_append]
          exact Or.inl (List.mem_map.2 ⟨a, ha, hc⟩))
      have h2 : l2.filter (fun ev => ev.att.attID = k) = [] := by
        rw [List.filter_eq_nil_iff]
        intro a ha
        simp only [decide_eq_true_eq]
        intro hc
        exact hk (by
          rw [List.mem_append]
          exact Or.inr (List.mem_map.2 ⟨a, ha, hc⟩))
      rw [buildActive, buildActive, foldl_applyEvent_get, foldl_applyEvent_get, h1, h2]
  have hv : e ∈ (buildActive l1).map Prod.snd ↔ e ∈ (buildActive l2).map Prod.snd := by
    rw [mem_values_iff _ (nodupKeys_buildActive l1), mem_values_iff _ (nodupKeys_buildActive l2)]
    exact exists_congr fun k => by rw [hget k]
  calc e ∈ computeCurrentAttachments l1
      ↔ e ∈ (buildActive l1).map Prod.snd := (List.perm_insertionSort tsLE _).mem_iff
    _ ↔ e ∈ (buildActive l2).map Prod.snd := hv
    _ ↔ e ∈ computeCurrentAttachments l2 := ((List.perm_insertionSort tsLE _).mem_iff).symm

/-- Witness for the amended C1 theorem: two concrete sequences that permute
events of distinct attachment ids (preserving each id's subsequence) have
the same surviving set, and the output is sorted. -/
def attB : Attachment := ⟨"b", "link", "m", "", none, 0, "u", ""⟩

def evAddB : AttachmentEvent := ⟨"add", "2024-01-03T00:00:00Z", attB⟩

theorem C1_computeCurrent_sorted_and_per_id_witness :
    List.Sorted tsLE (computeCurrentAttachments [evAdd, evAddB]) ∧
      (evAdd ∈ computeCurrentAttachments [evAdd, evAddB] ↔
        evAdd ∈ computeCurrentAttachments [evAddB, evAdd]) :=
  C1_computeCurrent_sorted_and_per_id [evAdd, evAddB] [evAddB, evAdd] evAdd (by decide)

/-- Concrete events for the C4 scenarios. -/
def att1 : Attachment := ⟨"att1", "note", "v1", "", none, 0, "", ""⟩

def att1v2 : Attachment := ⟨"att1", "note", "v2", "", none, 0, "", ""⟩

def att2 : Attachment := ⟨"att2", "note", "a2", "", none, 0, "", ""⟩

def e11 : AttachmentEvent := ⟨"add", "2024-01-01T00:00:00Z", att1⟩

def e22 : AttachmentEvent := ⟨"add", "2024-01-02T00:00:00Z", att2⟩

def e13 : AttachmentEvent := ⟨"remove", "2024-01-03T00:00:00Z", att1⟩

def f11 : AttachmentEvent := ⟨"add", "2024-01-01T00:00:00Z", att1⟩

def f12 : AttachmentEvent := ⟨"remove", "2024-01-02T00:00:00Z", att1⟩

def f13 : AttachmentEvent := ⟨"add", "2024-01-03T00:00:00Z", att1v2⟩

/-- C4: last-applicable-event-wins per attachment id.  For
`add(att1,T1), add(att2,T2), remove(att1,T3)` the reducer returns exactly
`[att2]`; for `add(att1,T1,"v1"), remove(att1,T2), add(att1,T3,"v2")` it
returns exactly `[att1]` carrying the newer metadata `"v2"` (a re-add after
a remove re-creates the attachment). -/
theorem C4_reducer_examples :
    computeCurrentAttachments [e11, e22, e13] = [e22] ∧
      computeCurrentAttachments [f11, f12, f13] = [f13] ∧
      f13.att.attID = "att1" ∧ f13.att.name = "v2" := by
  decide

/-! ### Identity generation (`internal/task/id.go`) -/

/-- The bits of one byte, most significant first. -/
def byteToBits (b : Nat) : List Bool :=
  [b.testBit 7, b.testBit 6, b.testBit 5, b.testBit 4,
   b.testBit 3, b.testBit 2, b.testBit 1, b.testBit 0]

/-- Value of a bit group, most significant first. -/
def bitsVal (bits : List Bool) : Nat :=
  bits.foldl (fun a bit => 2 * a + (if bit then 1 else 0)) 0

/-- Split a bit stream into 5-bit groups, zero-padding the last group
(RFC 4648 base32). -/
def chunk5 : List Bool → List Nat
  | b1 :: b2 :: b3 :: b4 :: b5 :: rest => bitsVal [b1, b2, b3, b4, b5] :: chunk5 rest
  | [] => []
  | rest => [bitsVal (rest ++ List.replicate (5 - rest.length) false)]

/-- The alphabet of Go's `base32.StdEncoding` (RFC 4648): `A`–`Z` for the
values 0–25 followed by `2`–`7` for 26–31.  Note the digits have *smaller*
ASCII codes than the letters while encoding *larger* group values. -/
def stdBase32Alphabet : List Char :=
  ['A', 'B', 'C', 'D', 'E', 'F', 'G', 'H', 'I', 'J', 'K', 'L', 'M',
   'N', 'O', 'P', 'Q', 'R', 'S', 'T', 'U', 'V', 'W', 'X', 'Y', 'Z',
   '2', '3', '4', '5', '6', '7']

/-- `base32.StdEncoding.WithPadding(NoPadding).EncodeToString`: bytes to
5-bit groups, most significant bits first, no padding characters. -/
def base32NoPad (bytes : List Nat) : String :=
  String.mk ((chunk5 ((bytes.map byteToBits).flatten)).map
    (fun n => stdBase32Alphabet.getD n 'A'))

/-- The 6 timestamp bytes built by the loop in `GenerateID`: the low 48 bits
of the millisecond timestamp, most significant byte first. -/
def tsBytes6 (tsMs : Nat) : List Nat :=
  [tsMs / 2 ^ 40 % 256, tsMs / 2 ^ 32 % 256, tsMs / 2 ^ 24 % 256,
   tsMs / 2 ^ 16 % 256, tsMs / 2 ^ 8 % 256, tsMs % 256]

/-- `GenerateID` from `internal/task/id.go`, with the two environment reads
(clock, `crypto/rand`) made explicit parameters: concatenate the 6 timestamp
bytes with the 10 random bytes and base32-encode the 16 bytes (26
characters).  The only error path in the source is a failing randomness
source, which is outside this pure model. -/
def GenerateID (tsMs : Nat) (rnd : List Nat) : String :=
  base32NoPad (tsBytes6 tsMs ++ rnd)

/-- C2 is false of the code: `GenerateID` uses the *standard* base32
alphabet, whose ASCII order disagrees with its value order (`'Z'` encodes 25
but sorts after `'2'`, which encodes 26).  At the realistic millisecond
timestamps 1760000000200 and 1760000000208 (8 ms apart, October 2025) and
zero random bytes, the earlier ID begins `AGM4QLGAZ…` and the later one
`AGM4QLGA2…`, so the ID of the strictly later timestamp compares lexically
*smaller* — contradicting both the claim and the function's own doc comment
("durable, time-sortable ID (ULID-like)"), which a Crockford-style alphabet
would satisfy.  Comparison is on the character (byte) sequences, as Go
compares strings byte-wise. -/
theorem C2_generateID_not_time_sortable :
    (1760000000200 : Nat) < 1760000000208 ∧
      (GenerateID 1760000000208 [0, 0, 0, 0, 0, 0, 0, 0, 0, 0]).data <
        (GenerateID 1760000000200 [0, 0, 0, 0, 0, 0, 0, 0, 0, 0]).data := by
  decide

/-! ### The attachment ledger file (`internal/commands/open.go`, shared with
show.go): `appendAttachmentEvent` and `loadAttachmentsWithMetadata`.

File contents are modelled as `String` (`Option String`, `none` = the file
does not exist).  JSON (de)serialization of events — Go's `json.Marshal` /
`json.Unmarshal` — is abstracted as explicit `enc` / `decode` function
parameters: the claims about the ledger quantify over line contents, not
over the JSON grammar.  `json.Marshal` output never contains a raw newline,
and `json.Unmarshal` succeeds on every `json.Marshal` output; concrete
instantiations in counterexamples use stand-in codecs with exactly these
properties. -/

/-- `bufio.ScanLines` tokenization, accumulator-style: tokens are maximal
runs not containing a newline; the final fragment after the last newline is
yielded only when non-empty. -/
def linesAux (cur : List Char) : List Char → List (List Char)
  | [] => if cur.isEmpty then [] else [cur.reverse]
  | c :: cs => if c = '\n' then cur.reverse :: linesAux [] cs else linesAux (c :: cur) cs

/-- `bufio.ScanLines` also drops one carriage return at the end of a token. -/
def dropCR (cs : List Char) : List Char :=
  if cs.getLast? = some '\r' then cs.dropLast else cs

/-- The raw scanner tokens of a file content: the newline-free runs,
BEFORE the carriage-return drop.  The scanner's buffer limit applies to
these raw runs. -/
def rawLines (content : String) : List (List Char) :=
  linesAux [] content.data

/-- The token sequence `bufio.Scanner` yields for a file content (raw runs
with the trailing carriage return dropped). -/
def scanLines (content : String) : List (List Char) :=
  (rawLines content).map dropCR

/-- `strings.TrimSpace` on the ASCII whitespace characters (the full Go
version also trims exotic Unicode space; ledger lines are ASCII). -/
def goIsSpace (c : Char) : Bool :=
  c = ' ' || c = '\t' || c = '\n' || c = '\r' || c = '\x0b' || c = '\x0c'

def trimSpace (cs : List Char) : List Char :=
  ((cs.dropWhile goIsSpace).reverse.dropWhile goIsSpace).reverse

/-- The scanner buffer limit set in `loadAttachmentsWithMetadata`:
`scanner.Buffer(make([]byte, 0, 1024*1024), 1024*1024)`.  `Scanner.Scan`
reports `ErrTooLong` as soon as a newline-free run FILLS the buffer — the
buffer-full check (`len(s.buf) >= s.maxTokenSize`) runs before the reader
can signal EOF — so a raw line of exactly 1048576 bytes already fails,
whether or not it is newline-terminated, and the run is measured before
`ScanLines` drops a trailing carriage return.  Lines of at most 1048575
bytes (1048575 run bytes plus the newline fit the buffer exactly) are
scanned normally.  The resulting error is returned by the load function. -/
def maxCapacity : Nat := 1024 * 1024

/-- The line loop of `loadAttachmentsWithMetadata`: trim each line, skip
blank lines, count lines `decode` rejects, accumulate decoded events in
order. -/
def loadLines (decode : List Char → Option AttachmentEvent) :
    List (List Char) → List AttachmentEvent × Nat
  | [] => ([], 0)
  | l :: ls =>
    if (trimSpace l).isEmpty then loadLines decode ls
    else
      match decode (trimSpace l) with
      | none => ((loadLines decode ls).1, (loadLines decode ls).2 + 1)
      | some e => (e :: (loadLines decode ls).1, (loadLines decode ls).2)

/-- `loadAttachmentsWithMetadata` from `internal/commands/open.go`: a
missing file yields an empty result and no error; any raw newline-free run
reaching the 1 MB scanner buffer size (`maxCapacity ≤ length`, measured
before the carriage-return drop) makes the whole read fail (`none`);
otherwise every line is processed to end of file. -/
def loadAttachmentsWithMetadata (decode : List Char → Option AttachmentEvent)
    (file : Option String) : Option (List AttachmentEvent × Nat) :=
  match file with
  | none => some ([], 0)
  | some content =>
    if (rawLines content).any (fun l => maxCapacity ≤ l.length) then none
    else some (loadLines decode (scanLines content))

/-- `appendAttachmentEvent` from `internal/commands/open.go`.  The source
opens the ledger with `O_APPEND|O_CREATE|O_WRONLY` (modelled by `openOk`;
on success a missing file comes into existence empty), then issues TWO
write calls: `f.Write(data)` for the marshalled event (outcome `ok1`; on
failure `w1` bytes were nevertheless appended) and `f.WriteString("\n")`
for the newline (outcome `ok2`, partial count `w2`).  Returns the resulting
file content and whether the append reported success. -/
def appendAttachmentEvent (enc : AttachmentEvent → String) (file : Option String)
    (event : AttachmentEvent) (openOk ok1 ok2 : Bool) (w1 w2 : Nat) :
    Option String × Bool :=
  if openOk = false then (file, false)
  else
    if ok1 = false then
      (some (file.getD (String.mk []) ++ String.mk ((enc event).data.take w1)), false)
    else
      if ok2 = false then
        (some (file.getD (String.mk []) ++ enc event ++ String.mk (['\n'].take w2)), false)
      else (some (file.getD (String.mk []) ++ enc event ++ String.mk ['\n']), true)

/-- Stand-in codec for the C3 counterexample: `enc0` marshals every event to
the newline-free line `E`, and `dec0` decodes exactly that line (to
`evAdd`).  Go's real `json.Marshal`/`json.Unmarshal` pair has the two
properties used here: marshalled events contain no raw newline and
unmarshal back successfully. -/
def enc0 : AttachmentEvent → String := fun _ => String.mk ['E']

def dec0 : List Char → Option AttachmentEvent :=
  fun cs => if cs = ['E'] then some evAdd else none

/-- C3 counterexample: an append that REPORTS FAILURE can nevertheless
change the ledger's parseable content.  The event line is emitted by two
write calls, not one: if `f.Write(data)` succeeds in full and the newline
write fails, `appendAttachmentEvent` returns an error, yet the ledger now
ends in a complete event line (the scanner yields a final
newline-terminated-or-not token), so loading parses one more event than
before the failed call. -/
theorem C3_partial_append_counterexample :
    (appendAttachmentEvent enc0 none evAdd true true false 1 0).2 = false ∧
      loadAttachmentsWithMetadata dec0
          (appendAttachmentEvent enc0 none evAdd true true false 1 0).1 =
        some ([evAdd], 0) ∧
      loadAttachmentsWithMetadata dec0 none = some ([], 0) := by
  decide

/-- C3 (amended): the append emits the event line with two write calls
(payload, then newline), so failure atomicity holds only up to the payload
write: whenever the append fails at open time, or the payload write fails
having durably appended nothing, the append reports failure and the
ledger's parseable content is unchanged.  (If the payload write succeeds
and only the newline write fails, the call still reports failure but the
complete event is already parseable — see the counterexample.) -/
theorem C3_append_failure_preserves_parse (enc : AttachmentEvent → String)
    (decode : List Char → Option AttachmentEvent) (file : Option String)
    (event : AttachmentEvent) (openOk ok1 ok2 : Bool) (w1 w2 : Nat)
    (hnb : openOk = false ∨ (ok1 = false ∧ w1 = 0)) :
    (appendAttachmentEvent enc file event openOk ok1 ok2 w1 w2).2 = false ∧
      loadAttachmentsWithMetadata decode
          (appendAttachmentEvent enc file event openOk ok1 ok2 w1 w2).1 =
        loadAttachmentsWithMetadata decode file := by
  rcases hnb with h | ⟨h1, h2⟩
  · subst h
    exact ⟨rfl, rfl⟩
  · subst h1
    subst h2
    cases openOk with
    | false => exact ⟨rfl, rfl⟩
    | true =>
      have hbase : ∀ s : String, s ++ String.mk (List.take 0 (enc event).data) = s := by
        intro s
        apply String.ext
        simp [String.data_append]
      cases file with
      | none =>
        refine ⟨rfl, ?_⟩
        have hfst : (appendAttachmentEvent enc none event true false ok2 0 w2).1 =
            some (String.mk []) := by
          show some (String.mk [] ++ String.mk (List.take 0 (enc event).data)) =
            some (String.mk [])
          rw [hbase]
        rw [hfst]
        rfl
      | some s =>
        refine ⟨rfl, ?_⟩
        have hfst : (appendAttachmentEvent enc (some s) event true false ok2 0 w2).1 =
            some s := by
          show some (s ++ String.mk (List.take 0 (enc event).data)) = some s
          rw [hbase]
        rw [hfst]

/-- Witness for the amended C3 theorem at a concrete failed append (payload
write fails with nothing written) against a one-line ledger. -/
theorem C3_append_failure_preserves_parse_witness :
    (appendAttachmentEvent enc0 (some (String.mk ['E'])) evAdd true false true 0 0).2 = false ∧
      loadAttachmentsWithMetadata dec0
          (appendAttachmentEvent enc0 (some (String.mk ['E'])) evAdd true false true 0 0).1 =
        loadAttachmentsWithMetadata dec0 (some (String.mk ['E'])) :=
  C3_append_failure_preserves_parse enc0 dec0 (some (String.mk ['E'])) evAdd true false true 0 0
    (Or.inr ⟨rfl, rfl⟩)

theorem linesAux_no_newline :
    ∀ (cs cur : List Char), (∀ c ∈ cs, c ≠ '\n') → ¬(cur = [] ∧ cs = []) →
      linesAux cur cs = [cur.reverse ++ cs] := by
  intro cs
  induction cs with
  | nil =>
    intro cur _ hne
    have hcur : cur ≠ [] := fun hc => hne ⟨hc, rfl⟩
    simp [linesAux, List.isEmpty_iff, hcur]
  | cons c cs ih =>
    intro cur hnl _
    have hc : ¬(c = '\n') := hnl c (List.mem_cons_self c cs)
    simp only [linesAux, if_neg hc]
    rw [ih (c :: cur) (fun d hd => hnl d (List.mem_cons_of_mem c hd)) (by simp)]
    simp

/-- A single line of exactly the scanner buffer size: 1048576 bytes, the
smallest newline-free run the scanner rejects. -/
def bigLine : List Char := List.replicate maxCapacity 'x'

def bigContent : String := String.mk bigLine

theorem bigLine_length : bigLine.length = maxCapacity :=
  List.length_replicate maxCapacity 'x'

theorem bigLine_ne_nil : bigLine ≠ [] := by
  intro h
  have h0 : bigLine.length = 0 := by rw [h]; rfl
  rw [bigLine_length] at h0
  exact absurd h0 (by norm_num [maxCapacity])

theorem rawLines_bigContent : rawLines bigContent = [bigLine] := by
  show linesAux [] bigContent.data = [bigLine]
  rw [show bigContent.data = bigLine from rfl]
  rw [linesAux_no_newline bigLine []]
  · simp
  · intro c hc
    rw [(List.mem_replicate.1 hc).2]
    decide
  · intro hcon
    exact bigLine_ne_nil hcon.2

theorem scanLines_bigContent : scanLines bigContent = [bigLine] := by
  have hl : bigLine.getLast? = some 'x' := by
    rw [show bigLine = List.replicate maxCapacity 'x' from rfl,
      show maxCapacity = 1048575 + 1 from by norm_num [maxCapacity],
      List.replicate_succ', List.getLast?_concat]
  have h2 : dropCR bigLine = bigLine := by
    rw [dropCR, hl, if_neg (by decide)]
  show (rawLines bigContent).map dropCR = [bigLine]
  rw [rawLines_bigContent]
  simp [h2]

/-- C5 counterexample: `loadAttachmentsWithMetadata` does NOT always read
the file to completion returning the malformed count.  The source installs
a 1 MB scanner buffer (`scanner.Buffer(buf, 1024*1024)`), and
`Scanner.Scan` fails with `ErrTooLong` once a newline-free run fills it: a
file whose single (malformed) line is exactly 1048576 bytes makes
`scanner.Err()` report the error and the whole load returns an error
(`none`) instead of the claim's `([], 1)`. -/
theorem C5_scanner_cap_counterexample :
    loadAttachmentsWithMetadata (fun _ => none) (some bigContent) = none ∧
      scanLines bigContent = [bigLine] ∧ bigLine.length = maxCapacity := by
  refine ⟨?_, scanLines_bigContent, bigLine_length⟩
  have hany : ([bigLine].any (fun l => maxCapacity ≤ l.length)) = true := by
    simp [bigLine_length]
  simp only [loadAttachmentsWithMetadata, rawLines_bigContent, hany, if_true]

theorem loadLines_spec (decode : List Char → Option AttachmentEvent) :
    ∀ ls, loadLines decode ls =
      (ls.filterMap (fun l => if (trimSpace l).isEmpty then none else decode (trimSpace l)),
        (ls.filter
          (fun l => !(trimSpace l).isEmpty && (decode (trimSpace l)).isNone)).length) := by
  intro ls
  induction ls with
  | nil => rfl
  | cons l ls ih =>
    cases hb : (trimSpace l).isEmpty with
    | true =>
      have heq : trimSpace l = [] := by simpa using hb
      simp [loadLines, hb, heq, List.filterMap_cons, List.filter_cons, ih]
    | false =>
      have hne : ¬(trimSpace l = []) := by simpa using hb
      cases hd : decode (trimSpace l) with
      | none => simp [loadLines, hb, hne, hd, List.filterMap_cons, List.filter_cons, ih]
      | some e => simp [loadLines, hb, hne, hd, List.filterMap_cons, List.filter_cons, ih]

/-- C5 (amended): provided every raw newline-free run of the file is
STRICTLY shorter than the 1 MB scanner buffer (at most 1048575 bytes,
measured before `ScanLines` drops a trailing carriage return),
`loadAttachmentsWithMetadata` reads the file to completion: it returns
exactly the well-formed events (every non-blank line `decode` accepts, in
file order) and a malformed count of exactly the number of non-blank lines
`decode` rejects; blank lines are counted in neither; and a missing ledger
file yields an empty event list with count 0, not an error.  A raw run
reaching 1048576 bytes instead aborts the whole load with an error (the
buffer fills before a newline or EOF is seen — see the counterexample). -/
theorem C5_load_reads_to_completion (decode : List Char → Option AttachmentEvent)
    (content : String)
    (hcap : ∀ l ∈ rawLines content, l.length < maxCapacity) :
    loadAttachmentsWithMetadata decode (some content) =
      some ((scanLines content).filterMap
          (fun l => if (trimSpace l).isEmpty then none else decode (trimSpace l)),
        ((scanLines content).filter
          (fun l => !(trimSpace l).isEmpty && (decode (trimSpace l)).isNone)).length) ∧
      loadAttachmentsWithMetadata decode none = some ([], 0) := by
  refine ⟨?_, rfl⟩
  have hany : ((rawLines content).any (fun l => maxCapacity ≤ l.length)) = false := by
    rw [List.any_eq_false]
    intro x hx
    simp only [decide_eq_true_eq, not_le]
    exact hcap x hx
  simp only [loadAttachmentsWithMetadata, hany]
  simp [loadLines_spec]

/-- Stand-in decoder for the C5 witness: accepts the lines `E1` and `E2`. -/
def dec5 : List Char → Option AttachmentEvent :=
  fun cs => if cs = ['E', '1'] then some evAdd
    else if cs = ['E', '2'] then some evRem else none

/-- A four-line ledger: well-formed, blank, malformed, well-formed. -/
def content5 : String := String.mk ['E', '1', '\n', '\n', 'Z', 'Z', '\n', 'E', '2']

theorem C5_load_reads_to_completion_witness :
    (∀ l ∈ rawLines content5, l.length < maxCapacity) ∧
      (loadAttachmentsWithMetadata dec5 (some content5) =
        some ((scanLines content5).filterMap
            (fun l => if (trimSpace l).isEmpty then none else dec5 (trimSpace l)),
          ((scanLines content5).filter
            (fun l => !(trimSpace l).isEmpty && (dec5 (trimSpace l)).isNone)).length) ∧
        loadAttachmentsWithMetadata dec5 none = some ([], 0)) :=
  ⟨by decide, C5_load_reads_to_completion dec5 content5 (by decide)⟩

/-! ### Task records and the file store (`internal/task/task.go`,
`internal/store/store.go`, `internal/commands/reindex.go`).

`time.Time` values are modelled as `Nat` milliseconds (`CreatedAt.Before` /
`.Equal` become `<` / `=`); the `Status` string type keeps its string
values; `*int` short aliases become `Option Int`. -/

/-- `task.StatusOpen`. -/
def StatusOpen : String := "open"

/-- `task.Task` (task.go).  All persisted fields are carried; the claims
touch `id`, `status`, `createdAt` and `shortID`. -/
structure Task where
  id : String
  title : String
  description : String
  status : String
  createdAt : Nat
  updatedAt : Nat
  dueAt : Option Nat
  project : String
  tags : List String
  shortID : Option Int
deriving DecidableEq, Repr

/-- The comparator of the `sort.Slice` in `FileStore.LoadAll`: by creation
timestamp, ties broken by durable ID (the reflexive closure of the strict
`less` used by the source). -/
def taskLE (a b : Task) : Prop :=
  a.createdAt < b.createdAt ∨ (a.createdAt = b.createdAt ∧ a.id ≤ b.id)

instance : DecidableRel taskLE := fun a b =>
  inferInstanceAs (Decidable (a.createdAt < b.createdAt ∨ (a.createdAt = b.createdAt ∧ a.id ≤ b.id)))

instance : IsTotal Task taskLE :=
  ⟨by
    intro a b
    rcases lt_trichotomy a.createdAt b.createdAt with h | h | h
    · exact Or.inl (Or.inl h)
    · rcases le_total a.id b.id with h2 | h2
      · exact Or.inl (Or.inr ⟨h, h2⟩)
      · exact Or.inr (Or.inr ⟨h.symm, h2⟩)
    · exact Or.inr (Or.inl h)⟩

instance : IsTrans Task taskLE :=
  ⟨by
    intro a b c hab hbc
    rcases hab with h1 | ⟨e1, l1⟩
    · rcases hbc with h2 | ⟨e2, _⟩
      · exact Or.inl (lt_trans h1 h2)
      · exact Or.inl (e2 ▸ h1)
    · rcases hbc with h2 | ⟨e2, l2⟩
      · exact Or.inl (e1 ▸ h2)
      · exact Or.inr ⟨e1.trans e2, le_trans l1 l2⟩⟩

/-- The sort performed at the end of `FileStore.LoadAll`: the store
directory's records ordered by (creation timestamp, durable ID) ascending.
The input list is the (arbitrary) directory enumeration order. -/
def loadAllSort (tasks : List Task) : List Task :=
  List.insertionSort taskLE tasks

/-- The renumbering pass of `RunReindex` (reindex.go): the source walks the
pointer-shared, already-sorted task list twice — assigning `1..K` to active
tasks in list order, then clearing `short_id` on every non-active task.
Because the first pass visits the active tasks exactly in list order, the
two passes are observationally this single recursion with a running
counter. -/
def reindexGo (sid : Int) : List Task → List Task
  | [] => []
  | t :: ts =>
    if t.status = StatusOpen then { t with shortID := some sid } :: reindexGo (sid + 1) ts
    else { t with shortID := none } :: reindexGo sid ts

/-- `RunReindex`'s effect on the record set: load and sort all records
(`LoadAll`), renumber actives `1..K`, strip non-actives.  The final
`Save` loop persists exactly this assignment. -/
def RunReindexAssign (tasks : List Task) : List Task :=
  reindexGo 1 (loadAllSort tasks)

theorem reindexGo_open_shortIDs (l : List Task) :
    ∀ s : Nat, ((reindexGo (s : Int) l).filter (fun t => t.status = StatusOpen)).map
        (fun t => t.shortID) =
      (List.range' s ((l.filter (fun t => t.status = StatusOpen)).length)).map
        (fun n => some ((n : Nat) : Int)) := by
  induction l with
  | nil => intro s; rfl
  | cons t l ih =>
    intro s
    by_cases h : t.status = StatusOpen
    · have hcast : ((s : Int) + 1) = ((s + 1 : Nat) : Int) := by push_cast; ring
      have hs : ({ t with shortID := some ((s : Nat) : Int) } : Task).status = t.status := rfl
      simp only [reindexGo, if_pos h, List.filter_cons, hs, h, decide_True, if_true,
        List.map_cons, List.length_cons, List.range']
      rw [hcast, ih (s + 1)]
    · simp only [reindexGo, if_neg h, List.filter_cons]
      have hs : ({ t with shortID := none } : Task).status = t.status := rfl
      rw [if_neg (by simpa [hs] using h), if_neg (by simpa using h)]
      exact ih s

theorem reindexGo_nonopen_clear (l : List Task) :
    ∀ (s : Int) (t : Task), t ∈ reindexGo s l → ¬(t.status = StatusOpen) →
      t.shortID = none := by
  induction l with
  | nil => intro s t ht; simp [reindexGo] at ht
  | cons u l ih =>
    intro s t ht hno
    by_cases h : u.status = StatusOpen
    · simp only [reindexGo, if_pos h, List.mem_cons] at ht
      rcases ht with ht | ht
      · exact absurd (ht ▸ h : t.status = StatusOpen) hno
      · exact ih (s + 1) t ht hno
    · simp only [reindexGo, if_neg h, List.mem_cons] at ht
      rcases ht with ht | ht
      · rw [ht]
      · exact ih s t ht hno

/-- The sort/status key of a task; `reindexGo` only rewrites `shortID`, so
this key is preserved positionally. -/
def taskKey (t : Task) : Nat × String × String :=
  (t.createdAt, t.id, t.status)

theorem reindexGo_map_key (l : List Task) :
    ∀ s : Int, (reindexGo s l).map taskKey = l.map taskKey := by
  induction l with
  | nil => intro s; rfl
  | cons t l ih =>
    intro s
    by_cases h : t.status = StatusOpen
    · simp only [reindexGo, if_pos h, List.map_cons, ih]
      rfl
    · simp only [reindexGo, if_neg h, List.map_cons, ih]
      rfl

/-- `taskLE` factors through `taskKey`. -/
def keyLE (a b : Nat × String × String) : Prop :=
  a.1 < b.1 ∨ (a.1 = b.1 ∧ a.2.1 ≤ b.2.1)

theorem pairwise_taskLE_iff (l : List Task) :
    List.Pairwise taskLE l ↔ List.Pairwise keyLE (l.map taskKey) := by
  rw [List.pairwise_map]
  exact Iff.rfl

theorem reindexGo_sorted (l : List Task) (s : Int) (h : List.Sorted taskLE l) :
    List.Sorted taskLE (reindexGo s l) := by
  have := (pairwise_taskLE_iff l).1 h
  rw [List.Sorted, pairwise_taskLE_iff, reindexGo_map_key]
  exact this

theorem reindexGo_idem (l : List Task) :
    ∀ s : Int, reindexGo s (reindexGo s l) = reindexGo s l := by
  induction l with
  | nil => intro s; rfl
  | cons t l ih =>
    intro s
    by_cases h : t.status = StatusOpen
    · have hs : ({ t with shortID := some s } : Task).status = t.status := rfl
      simp only [reindexGo, if_pos h]
      simp only [reindexGo, hs, if_pos h, ih (s + 1)]
    · have hs : ({ t with shortID := none } : Task).status = t.status := rfl
      simp only [reindexGo, if_neg h]
      simp only [reindexGo, hs, if_neg h, ih s]

/-- C6: `Reindex` assigns the short aliases `1..K` (K = number of active
records) to the active records taken in ascending (creation timestamp,
durable ID) order, strips the alias from every non-active record, and is
idempotent: reindexing the already-reindexed store reproduces it exactly. -/
theorem C6_reindex_contiguous_idempotent (tasks : List Task) :
    ((RunReindexAssign tasks).filter (fun t => t.status = StatusOpen)).map
        (fun t => t.shortID) =
      (List.range' 1 ((tasks.filter (fun t => t.status = StatusOpen)).length)).map
        (fun n => some ((n : Nat) : Int)) ∧
      List.Sorted taskLE (RunReindexAssign tasks) ∧
      ((RunReindexAssign tasks).filter (fun t => ¬(t.status = StatusOpen))).all
        (fun t => t.shortID.isNone) = true ∧
      RunReindexAssign (RunReindexAssign tasks) = RunReindexAssign tasks := by
  refine ⟨?_, ?_, ?_, ?_⟩
  · have hlen : ((loadAllSort tasks).filter (fun t => t.status = StatusOpen)).length =
        ((tasks.filter (fun t => t.status = StatusOpen)).length) :=
      ((List.perm_insertionSort taskLE tasks).filter _).length_eq
    rw [RunReindexAssign, show (1 : Int) = ((1 : Nat) : Int) from rfl,
      reindexGo_open_shortIDs (loadAllSort tasks) 1, hlen]
  · exact reindexGo_sorted _ 1 (List.sorted_insertionSort taskLE tasks)
  · rw [List.all_eq_true]
    intro t ht
    have hmem : t ∈ RunReindexAssign tasks := by
      exact (List.mem_filter.1 ht).1
    have hno : ¬(t.status = StatusOpen) := by
      have := (List.mem_filter.1 ht).2
      simpa using this
    have := reindexGo_nonopen_clear (loadAllSort tasks) 1 t hmem hno
    simp [this]
  · have hsorted : List.Sorted taskLE (RunReindexAssign tasks) :=
      reindexGo_sorted _ 1 (List.sorted_insertionSort taskLE tasks)
    rw [show RunReindexAssign (RunReindexAssign tasks) =
        reindexGo 1 (loadAllSort (RunReindexAssign tasks)) from rfl]
    rw [show loadAllSort (RunReindexAssign tasks) = RunReindexAssign tasks from
      hsorted.insertionSort_eq]
    exact reindexGo_idem _ 1

/-- Number of directory entries at a path (for the one-file-on-disk part
of the idempotence claim). -/
def fsCount {β : Type} : List (String × β) → String → Nat
  | [], _ => 0
  | (k, _) :: fs, q => (if k = q then 1 else 0) + fsCount fs q

/-- The nested content-addressed path
`<threadDir>/blobs/sha256/<hash 0:2>/<hash 2:4>/<hash>` built by
`storeBlob` (`filepath.Join` of non-empty clean components is
`/`-concatenation; the 64-character digest makes the two slices safe). -/
def blobPath (threadDir h : String) : String :=
  threadDir ++ "/blobs/sha256/" ++ String.mk (h.data.take 2) ++ "/" ++
    String.mk ((h.data.drop 2).take 2) ++ "/" ++ h

/-- `storeBlob` from `internal/commands/open.go`: hash the content, and if a
file already exists at the content-addressed path return its existing size
without rewriting; otherwise write the payload there.  Returns (hash hex,
size, resulting filesystem). -/
def storeBlob (hashHex : List Nat → String) (fs : List (String × List Nat))
    (threadDir : String) (content : List Nat) : String × Nat × List (String × List Nat) :=
  match assocGet fs (blobPath threadDir (hashHex content)) with
  | some existing => (hashHex content, existing.length, fs)
  | none =>
    (hashHex content, content.length,
      assocSet fs (blobPath threadDir (hashHex content)) content)

theorem fsCount_eq_zero_of_get_none {β : Type} (fs : List (String × β)) (q : String)
    (h : assocGet fs q = none) : fsCount fs q = 0 := by
  induction fs with
  | nil => rfl
  | cons p fs ih =>
    by_cases hp : p.1 = q
    · simp [assocGet, hp] at h
    · simp only [assocGet, if_neg hp] at h
      simp [fsCount, hp, ih h]

theorem fsCount_set_of_get_none {β : Type} (fs : List (String × β)) (q : String) (v : β)
    (h : assocGet fs q = none) : fsCount (assocSet fs q v) q = 1 := by
  induction fs with
  | nil => simp [assocSet, fsCount]
  | cons p fs ih =>
    by_cases hp : p.1 = q
    · simp [assocGet, hp] at h
    · simp only [assocGet, if_neg hp] at h
      simp [assocSet, hp, fsCount, ih h]

/-- C7: `storeBlob` is idempotent.  Starting from a filesystem with no file
at the content-addressed path, storing the same bytes twice returns the
same hash and the same size both times, the second call leaves the
filesystem untouched, and exactly one file exists at that path; moreover
whenever a file (of any bytes `d`) already exists at the path, the call
treats it as authoritative: it returns the existing file's size without
rewriting or re-verifying, leaving the filesystem unchanged. -/
theorem C7_storeBlob_idempotent (hashHex : List Nat → String)
    (fs gs : List (String × List Nat)) (threadDir : String) (content d : List Nat)
    (hfresh : assocGet fs (blobPath threadDir (hashHex content)) = none)
    (hex : assocGet gs (blobPath threadDir (hashHex content)) = some d) :
    (storeBlob hashHex (storeBlob hashHex fs threadDir content).2.2 threadDir content).1 =
        (storeBlob hashHex fs threadDir content).1 ∧
      (storeBlob hashHex (storeBlob hashHex fs threadDir content).2.2 threadDir content).2.1 =
        (storeBlob hashHex fs threadDir content).2.1 ∧
      (storeBlob hashHex (storeBlob hashHex fs threadDir content).2.2 threadDir content).2.2 =
        (storeBlob hashHex fs threadDir content).2.2 ∧
      fsCount (storeBlob hashHex fs threadDir content).2.2
          (blobPath threadDir (hashHex content)) = 1 ∧
      storeBlob hashHex gs threadDir content = (hashHex content, d.length, gs) := by
  have h1 : storeBlob hashHex fs threadDir content =
      (hashHex content, content.length,
        assocSet fs (blobPath threadDir (hashHex content)) content) := by
    simp [storeBlob, hfresh]
  have hget2 : assocGet (assocSet fs (blobPath threadDir (hashHex content)) content)
      (blobPath threadDir (hashHex content)) = some content :=
    assocGet_set_self _ _ _
  refine ⟨?_, ?_, ?_, ?_, ?_⟩
  · rw [h1]
    simp [storeBlob, hget2]
  · rw [h1]
    simp [storeBlob, hget2]
  · rw [h1]
    simp [storeBlob, hget2]
  · rw [h1]
    exact fsCount_set_of_get_none fs _ content hfresh
  · simp [storeBlob, hex]

/-- Witness for C7 with a stand-in digest, an empty filesystem for the
fresh half and a single preexisting (shorter) file for the existing half. -/
def w7hash : List Nat → String := fun _ => String.mk ['a', 'b', 'c', 'd', 'e']

theorem C7_storeBlob_idempotent_witness :
    (storeBlob w7hash
          (storeBlob w7hash [] (String.mk ['t']) [1, 2]).2.2 (String.mk ['t']) [1, 2]).1 =
        (storeBlob w7hash [] (String.mk ['t']) [1, 2]).1 ∧
      (storeBlob w7hash
          (storeBlob w7hash [] (String.mk ['t']) [1, 2]).2.2 (String.mk ['t']) [1, 2]).2.1 =
        (storeBlob w7hash [] (String.mk ['t']) [1, 2]).2.1 ∧
      (storeBlob w7hash
          (storeBlob w7hash [] (String.mk ['t']) [1, 2]).2.2 (String.mk ['t']) [1, 2]).2.2 =
        (storeBlob w7hash [] (String.mk ['t']) [1, 2]).2.2 ∧
      fsCount (storeBlob w7hash [] (String.mk ['t']) [1, 2]).2.2
          (blobPath (String.mk ['t']) (w7hash [1, 2])) = 1 ∧
      storeBlob w7hash [(blobPath (String.mk ['t']) (w7hash [1, 2]), [9])]
          (String.mk ['t']) [1, 2] =
        (w7hash [1, 2], 1, [(blobPath (String.mk ['t']) (w7hash [1, 2]), [9])]) :=
  C7_storeBlob_idempotent w7hash [] [(blobPath (String.mk ['t']) (w7hash [1, 2]), [9])]
    (String.mk ['t']) [1, 2] [9] (by decide) (by decide)

/-! ### Sharded thread paths (`ThreadPath` / `ThreadFilePath`,
`internal/store`, appended to id.go in the source tree). -/

/-- A Go slice expression `s[i:j]` on a string: out-of-range bounds are a
runtime panic, modelled as `none`. -/
def goSlice (s : String) (i j : Nat) : Option String :=
  if i ≤ j ∧ j ≤ s.length then some (String.mk ((s.data.drop i).take (j - i)))
  else none

/-- `filepath.Join`: drop empty elements and interleave the separator.
(The trailing `Clean` is the identity on the already-clean components the
store builds and is elided.) -/
def goFilepathJoin (parts : List String) : String :=
  match parts.filter (fun q => !(q.isEmpty)) with
  | [] => String.mk []
  | p :: ps => ps.foldl (fun acc q => acc ++ "/" ++ q) p

/-- `ThreadPath` from the store: `bucket := threadID[0:2]` — a slice with
no length guard, hence a panic (`none`) for ids shorter than two bytes —
then `filepath.Join(threadsDir, bucket, threadID)`. -/
def ThreadPath (threadsDir threadID : String) : Option String :=
  match goSlice threadID 0 2 with
  | none => none
  | some bucket => some (goFilepathJoin [threadsDir, bucket, threadID])

/-- `ThreadFilePath`: `thread.json` inside the thread directory. -/
def ThreadFilePath (threadsDir threadID : String) : Option String :=
  (ThreadPath threadsDir threadID).map (fun p => p ++ "/thread.json")

/-- C10: `ThreadPath` slices the first two characters of the durable ID
with no length guard.  For every root directory and every id of length at
least 2 it totally and deterministically returns the join of the root, the
two-character bucket and the id; for any id shorter than two characters the
slice is out of range and the function panics (modelled `none`) instead of
returning an error.  (Stated over one id of each kind.) -/
theorem C10_threadPath_slice_no_guard (threadsDir id1 id2 : String)
    (h1 : 2 ≤ id1.length) (h2 : id2.length < 2) :
    ThreadPath threadsDir id1 =
        some (goFilepathJoin [threadsDir, String.mk (id1.data.take 2), id1]) ∧
      ThreadPath threadsDir id2 = none := by
  constructor
  · rw [ThreadPath, goSlice, if_pos ⟨Nat.zero_le 2, h1⟩]
    rfl
  · rw [ThreadPath, goSlice, if_neg]
    intro hc
    exact absurd hc.2 (by omega)

theorem C10_threadPath_slice_no_guard_witness :
    ThreadPath (String.mk ['r']) (String.mk ['a', 'b', '1']) =
        some (goFilepathJoin [String.mk ['r'],
          String.mk ((String.mk ['a', 'b', '1']).data.take 2), String.mk ['a', 'b', '1']]) ∧
      ThreadPath (String.mk ['r']) (String.mk ['x']) = none :=
  C10_threadPath_slice_no_guard (String.mk ['r']) (String.mk ['a', 'b', '1'])
    (String.mk ['x']) (by decide) (by decide)

/-! ### Post-append record update (`updateThreadAttachmentsLog`,
`internal/commands/open.go`).

The persisted `thread.json` object is modelled as an association map from
field name to a JSON value; `json.Unmarshal` into `map[string]interface{}`
and `json.MarshalIndent` are abstracted as the `parse`/`encode` parameters
(the claims concern which keys the cycle touches, not the JSON grammar).
The source first re-loads the record through `GetByID` — which supplies the
refreshed `UpdatedAt` timestamp (the `nowTs` parameter) and runs
`EnsureShortID`, a no-op in the attach flow because resolution has already
assigned the alias — and then performs the documented cycle modelled here:
read the raw persisted form, decode, set the two fields, re-encode, write
to `<path>.tmp`, rename over the original. -/

/-- JSON values, for fields this core does not interpret. -/
inductive JsonValue where
  | str (s : String)
  | num (n : Int)
  | boolean (b : Bool)
  | null
  | arr (elems : List JsonValue)
  | obj (fields : List (String × JsonValue))

/-- The two map assignments of the cycle:
`threadData["attachments_log"] = "attachments.jsonl"` and
`threadData["updated_at"] = <now, RFC3339>`. -/
def updateThreadData (m : List (String × JsonValue)) (nowTs : String) :
    List (String × JsonValue) :=
  assocSet (assocSet m ("attachments_log") (JsonValue.str ("attachments.jsonl")))
    ("updated_at") (JsonValue.str nowTs)

/-- `os.Rename(src, dst)`: move the content at `src` over `dst`. -/
def fsRename (fs : List (String × String)) (src dst : String) : List (String × String) :=
  match assocGet fs src with
  | none => fs
  | some v => assocSet (assocErase fs src) dst v

/-- `updateThreadAttachmentsLog`: locate `thread.json` via the sharded path,
read it, decode, set the two fields, re-encode, and persist atomically
(write temp file, rename).  Every failure (panic-length id, missing file,
parse failure) aborts with an error (`none`). -/
def updateThreadAttachmentsLog (encode : List (String × JsonValue) → String)
    (parse : String → Option (List (String × JsonValue)))
    (fs : List (String × String)) (threadsDir threadID nowTs : String) :
    Option (List (String × String)) :=
  match ThreadFilePath threadsDir threadID with
  | none => none
  | some tp =>
    match assocGet fs tp with
    | none => none
    | some raw =>
      match parse raw with
      | none => none
      | some m =>
        some (fsRename
          (assocSet fs (tp ++ ".tmp") (encode (updateThreadData m nowTs)))
          (tp ++ ".tmp") tp)

theorem string_ne_append_tmp (s : String) : s ≠ s ++ ".tmp" := by
  intro hc
  have := congrArg String.length hc
  rw [String.length_append] at this
  have h4 : (".tmp" : String).length = 4 := rfl
  omega

/-- C9: the post-append record update modifies only the ledger-pointer
field and the update timestamp of the decoded record — every other
key/value pair present in the raw persisted JSON, including fields unknown
to the core, is preserved unchanged through the read-decode-set-reencode-
persist cycle — and the persist step writes the re-encoded record to the
temporary path and renames it over the original: afterwards the record file
holds exactly the re-encoded object, the temporary path no longer exists,
and every other path on the filesystem is untouched. -/
theorem C9_update_frame_and_atomic_persist
    (encode : List (String × JsonValue) → String)
    (parse : String → Option (List (String × JsonValue)))
    (fs : List (String × String)) (threadsDir threadID nowTs : String)
    (tp raw : String) (m : List (String × JsonValue)) (k p : String)
    (htp : ThreadFilePath threadsDir threadID = some tp)
    (hread : assocGet fs tp = some raw)
    (hparse : parse raw = some m)
    (hk1 : k ≠ "attachments_log") (hk2 : k ≠ "updated_at")
    (hp1 : p ≠ tp) (hp2 : p ≠ tp ++ ".tmp") :
    assocGet (updateThreadData m nowTs) k = assocGet m k ∧
      assocGet (updateThreadData m nowTs) ("attachments_log") =
        some (JsonValue.str ("attachments.jsonl")) ∧
      assocGet (updateThreadData m nowTs) ("updated_at") = some (JsonValue.str nowTs) ∧
      (updateThreadAttachmentsLog encode parse fs threadsDir threadID nowTs).map
          (fun fsp => assocGet fsp tp) =
        some (some (encode (updateThreadData m nowTs))) ∧
      (updateThreadAttachmentsLog encode parse fs threadsDir threadID nowTs).map
          (fun fsp => assocGet fsp (tp ++ ".tmp")) = some none ∧
      (updateThreadAttachmentsLog encode parse fs threadsDir threadID nowTs).map
          (fun fsp => assocGet fsp p) = some (assocGet fs p) := by
  have htmp : tp ≠ tp ++ ".tmp" := string_ne_append_tmp tp
  have hrun : updateThreadAttachmentsLog encode parse fs threadsDir threadID nowTs =
      some (fsRename
        (assocSet fs (tp ++ ".tmp") (encode (updateThreadData m nowTs)))
        (tp ++ ".tmp") tp) := by
    simp [updateThreadAttachmentsLog, htp, hread, hparse]
  have hren : fsRename
      (assocSet fs (tp ++ ".tmp") (encode (updateThreadData m nowTs)))
      (tp ++ ".tmp") tp =
      assocSet (assocErase (assocSet fs (tp ++ ".tmp")
        (encode (updateThreadData m nowTs))) (tp ++ ".tmp")) tp
        (encode (updateThreadData m nowTs)) := by
    rw [fsRename, assocGet_set_self]
  refine ⟨?_, ?_, ?_, ?_, ?_, ?_⟩
  · rw [updateThreadData, assocGet_set_ne _ _ _ _ hk2, assocGet_set_ne _ _ _ _ hk1]
  · rw [updateThreadData, assocGet_set_ne _ _ _ _ (by decide), assocGet_set_self]
  · rw [updateThreadData, assocGet_set_self]
  · rw [hrun, hren, Option.map_some']
    rw [assocGet_set_self]
  · rw [hrun, hren, Option.map_some']
    rw [assocGet_set_ne _ _ _ _ (Ne.symm htmp), assocGet_erase_self]
  · rw [hrun, hren, Option.map_some']
    rw [assocGet_set_ne _ _ _ _ hp1, assocGet_erase_ne _ _ _ hp2,
      assocGet_set_ne _ _ _ _ hp2]

/-- Concrete data for the C9 witness: a record with one field unknown to
the core, a one-file store at the sharded path for root `root` and id
`ab`, and stand-in codecs. -/
def w9enc : List (String × JsonValue) → String := fun _ => String.mk ['E']

def w9m : List (String × JsonValue) := [(String.mk ['c'], JsonValue.num 7)]

def w9parse : String → Option (List (String × JsonValue)) := fun _ => some w9m

def w9tp : String := "root/ab/ab/thread.json"

def w9fs : List (String × String) := [(w9tp, String.mk ['R'])]

theorem C9_update_frame_and_atomic_persist_witness :
    assocGet (updateThreadData w9m ("now")) (String.mk ['c']) =
        assocGet w9m (String.mk ['c']) ∧
      assocGet (updateThreadData w9m ("now")) ("attachments_log") =
        some (JsonValue.str ("attachments.jsonl")) ∧
      assocGet (updateThreadData w9m ("now")) ("updated_at") =
        some (JsonValue.str ("now")) ∧
      (updateThreadAttachmentsLog w9enc w9parse w9fs ("root") ("ab") ("now")).map
          (fun fsp => assocGet fsp w9tp) =
        some (some (w9enc (updateThreadData w9m ("now")))) ∧
      (updateThreadAttachmentsLog w9enc w9parse w9fs ("root") ("ab") ("now")).map
          (fun fsp => assocGet fsp (w9tp ++ ".tmp")) = some none ∧
      (updateThreadAttachmentsLog w9enc w9parse w9fs ("root") ("ab") ("now")).map
          (fun fsp => assocGet fsp (String.mk ['p'])) =
        some (assocGet w9fs (String.mk ['p'])) :=
  C9_update_frame_and_atomic_persist w9enc w9parse w9fs ("root") ("ab") ("now")
    w9tp (String.mk ['R']) w9m (String.mk ['c']) (String.mk ['p'])
    (by decide) (by decide) rfl (by decide) (by decide) (by decide) (by decide)

end Threadkeeper
